import Mathlib

/-!
Shallow embedding of the `proj` project navigator core, used to check the
natural-language specification against the implementation.

The embedding covers:
* the scanner data model and `Sort` from `internal/project/scanner.go`;
* `scanWithGroups` / `findChildProjects` / `scanProject` /
  `isProjectRoot` from the same file, over an abstract filesystem;
* the plugin registry (`LoadAll`, `getPluginConfig`, `ExecuteAction`)
  from `pkg/plugin/registry.go` and `ExternalPlugin` from
  `pkg/plugin/external.go`;
* the JSON-RPC transport (`RPCClient.Call`) from `pkg/plugin/rpc.go`.

Modelling conventions:
* Go filesystem paths are component lists (`filepath.Join base name` is
  `base ++ [name]`); the empty Go path string is the empty list.
* `time.Time` is a `Nat` tick count; `t1.After t2` is `t2 < t1`.
* Go maps used as lookup tables are association lists.
* `sort.Slice` is modelled by the insertion sort that Go's `sort.Slice`
  itself performs on slices shorter than twelve elements (`pdqsort`
  delegates to plain insertion sort below that length); the comparator is
  transliterated from the source.  All theorems proved about sorted output
  rely only on orderings the comparator forces, and the refuting inputs
  are short enough that Go runs exactly this insertion sort on them.
-/

namespace Proj

/-- Project entity, transliterated from `Project` in
`internal/project/scanner.go`.  Field names follow the Go struct. -/
structure Project where
  name : String
  path : List String
  parentPath : List String := []
  language : String := ""
  gitBranch : String := ""
  gitDirty : Bool := false
  isGitRepo : Bool := false
  lastModified : Nat := 0
  hasDockerfile : Bool := false
  hasCompose : Bool := false
  depth : Nat := 0
  subProjectCount : Nat := 0
  isGroup : Bool := false
  expanded : Bool := false
deriving Repr, DecidableEq

/-- The `SortBy` constant `SortByName` ("name"). -/
def sortByName : String := "name"

/-- The `SortBy` constant `SortByLastModified` ("lastModified"). -/
def sortByLastModified : String := "lastModified"

/-- The `SortBy` constant `SortByLanguage` ("language"). -/
def sortByLanguage : String := "language"

/-- Insert `x` into `acc`, placing it before the first element it compares
less-than.  For the strict-weak-order comparators of `Sort` this computes
the same final position as the right-to-left swap loop of Go's insertion
sort, and like that loop it is stable. -/
def insertSorted (less : α → α → Bool) (x : α) : List α → List α
  | [] => [x]
  | y :: ys => if less x y then x :: y :: ys else y :: insertSorted less x ys

/-- Model of `sort.Slice(s, less)`: the stable insertion sort Go performs
on short slices, folding the input left to right. -/
def sortSlice (less : α → α → Bool) (l : List α) : List α :=
  l.foldl (fun acc x => insertSorted less x acc) []

/-- The `groupedProject` record local to `Sort`: a Depth-0 parent together
with the children attached to it. -/
structure GroupedProject where
  parent : Project
  children : List Project
deriving Repr, DecidableEq

/-- Comparator of the first `sort.Slice` call in `Sort` (scanner.go,
`sortFunc`), applied to the parents of two groups.  The `switch by`
statement becomes an if-chain on the key string; the `default` branch
compares names, as in the source. -/
def groupLess (by_ : String) (p1 p2 : Project) : Bool :=
  if by_ == sortByName then decide (p1.name < p2.name)
  else if by_ == sortByLastModified then decide (p2.lastModified < p1.lastModified)
  else if by_ == sortByLanguage then
    let langI := if p1.isGroup then "zzz" else p1.language
    let langJ := if p2.isGroup then "zzz" else p2.language
    if langI == langJ then decide (p1.name < p2.name)
    else decide (langI < langJ)
  else decide (p1.name < p2.name)

/-- Comparator of the second `sort.Slice` call in `Sort`, ordering the
children inside one group. -/
def childLess (by_ : String) (c1 c2 : Project) : Bool :=
  if by_ == sortByName then decide (c1.name < c2.name)
  else if by_ == sortByLastModified then decide (c2.lastModified < c1.lastModified)
  else if by_ == sortByLanguage then
    if c1.language == c2.language then decide (c1.name < c2.name)
    else decide (c1.language < c2.language)
  else decide (c1.name < c2.name)

/-- Second pass of `Sort`: `groupMap[p.ParentPath]` resolves to the group
whose parent was inserted last with that path (later map writes win), and
the child is appended to that group's `children`.  A child whose parent
path matches no group is dropped, exactly as the `if g, ok :=` guard does. -/
def attachChild (c : Project) : List GroupedProject → List GroupedProject
  | [] => []
  | g :: gs =>
    if g.parent.path == c.parentPath
        && !(gs.any (fun g2 => g2.parent.path == c.parentPath)) then
      { g with children := g.children ++ [c] } :: gs
    else
      g :: attachChild c gs

/-- First pass of `Sort`: one group per Depth-0 entity, in input order. -/
def groupsOf (l : List Project) : List GroupedProject :=
  (l.filter (fun p => p.depth == 0)).map (fun p => { parent := p, children := [] })

/-- The children considered by the second pass of `Sort`: entities with
`Depth > 0` and a non-empty `ParentPath`. -/
def eligChildren (l : List Project) : List Project :=
  l.filter (fun p => decide (0 < p.depth) && !(p.parentPath == []))

/-- State of `Sort` after its two grouping passes. -/
def groupedOf (l : List Project) : List GroupedProject :=
  (eligChildren l).foldl (fun gs c => attachChild c gs) (groupsOf l)

/-- State of `Sort` after the group-level `sort.Slice`. -/
def sortedGroupsOf (l : List Project) (by_ : String) : List GroupedProject :=
  sortSlice (fun g1 g2 => groupLess by_ g1.parent g2.parent) (groupedOf l)

/-- State of `Sort` after the per-group child `sort.Slice`. -/
def sortedChildGroupsOf (l : List Project) (by_ : String) : List GroupedProject :=
  (sortedGroupsOf l by_).map
    (fun g => { g with children := sortSlice (childLess by_) g.children })

/-- `Sort(projects, by)` from `internal/project/scanner.go`: group, sort
groups, sort children, flatten parent-then-children.  (Named
`sortProjects` because `Sort` is reserved in Lean.) -/
def sortProjects (l : List Project) (by_ : String) : List Project :=
  (sortedChildGroupsOf l by_).flatMap (fun g => g.parent :: g.children)

/-- The children of all groups, concatenated in group order. -/
def childrenConcat (gs : List GroupedProject) : List Project :=
  gs.flatMap GroupedProject.children

open List

theorem beq_comm_eq [BEq α] [LawfulBEq α] (a b : α) : (a == b) = (b == a) := by
  cases h : b == a
  · refine Bool.eq_false_iff.2 (fun hab => ?_)
    exact Bool.eq_false_iff.1 h (by rw [eq_of_beq hab]; exact beq_self_eq_true b)
  · rw [eq_of_beq h]; exact beq_self_eq_true a

theorem insertSorted_perm (less : α → α → Bool) (x : α) (l : List α) :
    insertSorted less x l ~ x :: l := by
  induction l with
  | nil => simp [insertSorted]
  | cons y ys ih =>
    cases hxy : less x y with
    | true => simp [insertSorted, hxy]
    | false =>
      simp only [insertSorted, hxy, Bool.false_eq_true, if_false]
      exact (ih.cons y).trans (List.Perm.swap x y ys)

theorem foldl_insertSorted_perm (less : α → α → Bool) (l acc : List α) :
    l.foldl (fun a x => insertSorted less x a) acc ~ acc ++ l := by
  induction l generalizing acc with
  | nil => simp
  | cons x xs ih =>
    calc (x :: xs).foldl (fun a x => insertSorted less x a) acc
        = xs.foldl (fun a x => insertSorted less x a) (insertSorted less x acc) := rfl
      _ ~ insertSorted less x acc ++ xs := ih (insertSorted less x acc)
      _ ~ (x :: acc) ++ xs := (insertSorted_perm less x acc).append_right xs
      _ ~ acc ++ x :: xs := List.perm_middle.symm

theorem sortSlice_perm (less : α → α → Bool) (l : List α) : sortSlice less l ~ l := by
  simpa using foldl_insertSorted_perm less l []

theorem insertSorted_pairwise (less : α → α → Bool)
    (hasymm : ∀ a b, less a b = true → less b a = false)
    (htrans : ∀ a b c, less a b = true → less b c = true → less a c = true)
    (x : α) (l : List α)
    (hl : l.Pairwise (fun a b => less b a = false)) :
    (insertSorted less x l).Pairwise (fun a b => less b a = false) := by
  induction l with
  | nil => simp [insertSorted]
  | cons y ys ih =>
    rcases List.pairwise_cons.1 hl with ⟨hy, hys⟩
    cases hxy : less x y with
    | true =>
      simp only [insertSorted, hxy, if_true]
      refine List.pairwise_cons.2 ⟨?_, hl⟩
      intro z hz
      rcases List.mem_cons.1 hz with rfl | hz2
      · exact hasymm x z hxy
      · cases hzx : less z x with
        | true =>
          have : less z y = true := htrans z x y hzx hxy
          rw [hy z hz2] at this
          exact absurd this (by simp)
        | false => rfl
    | false =>
      simp only [insertSorted, hxy, Bool.false_eq_true, if_false]
      refine List.pairwise_cons.2 ⟨?_, ih hys⟩
      intro z hz
      have hz3 : z ∈ x :: ys := (insertSorted_perm less x ys).mem_iff.1 hz
      rcases List.mem_cons.1 hz3 with rfl | hz4
      · exact hxy
      · exact hy z hz4

theorem sortSlice_pairwise (less : α → α → Bool)
    (hasymm : ∀ a b, less a b = true → less b a = false)
    (htrans : ∀ a b c, less a b = true → less b c = true → less a c = true)
    (l : List α) :
    (sortSlice less l).Pairwise (fun a b => less b a = false) := by
  suffices h : ∀ acc : List α, acc.Pairwise (fun a b => less b a = false) →
      (l.foldl (fun a x => insertSorted less x a) acc).Pairwise
        (fun a b => less b a = false) from h [] (by simp)
  induction l with
  | nil => intro acc hacc; exact hacc
  | cons x xs ih =>
    intro acc hacc
    exact ih (insertSorted less x acc) (insertSorted_pairwise less hasymm htrans x acc hacc)

theorem attachChild_no_match (c : Project) (gs : List GroupedProject)
    (h : gs.any (fun g => g.parent.path == c.parentPath) = false) :
    attachChild c gs = gs := by
  induction gs with
  | nil => rfl
  | cons g rest ih =>
    rw [List.any_cons, Bool.or_eq_false_iff] at h
    simp only [attachChild, h.1, Bool.false_and, Bool.false_eq_true, if_false]
    rw [ih h.2]

theorem attachChild_map_parent (c : Project) (gs : List GroupedProject) :
    (attachChild c gs).map GroupedProject.parent = gs.map GroupedProject.parent := by
  induction gs with
  | nil => rfl
  | cons g rest ih =>
    cases h : (g.parent.path == c.parentPath
        && !(rest.any (fun g2 => g2.parent.path == c.parentPath))) with
    | true => simp [attachChild, h]
    | false => simp [attachChild, h, ih]

theorem attachChild_childrenConcat (c : Project) (gs : List GroupedProject) :
    childrenConcat (attachChild c gs) ~
      (if gs.any (fun g => g.parent.path == c.parentPath) then childrenConcat gs ++ [c]
       else childrenConcat gs) := by
  induction gs with
  | nil => simp [attachChild, childrenConcat]
  | cons g rest ih =>
    cases hg : g.parent.path == c.parentPath with
    | false =>
      simp only [attachChild, hg, Bool.false_and, Bool.false_eq_true, if_false,
        List.any_cons, Bool.false_or]
      cases hr : rest.any (fun g2 => g2.parent.path == c.parentPath) with
      | false =>
        rw [hr, if_neg (by simp)] at ih
        simpa [childrenConcat] using ih.append_left g.children
      | true =>
        rw [hr, if_pos rfl] at ih
        simp only [if_pos rfl]
        calc childrenConcat (g :: attachChild c rest)
            = g.children ++ childrenConcat (attachChild c rest) := by
              simp [childrenConcat]
          _ ~ g.children ++ (childrenConcat rest ++ [c]) := ih.append_left g.children
          _ = (g.children ++ childrenConcat rest) ++ [c] := by rw [List.append_assoc]
          _ = childrenConcat (g :: rest) ++ [c] := by simp [childrenConcat]
    | true =>
      cases hr : rest.any (fun g2 => g2.parent.path == c.parentPath) with
      | false =>
        simp only [attachChild, hg, hr, Bool.not_false, Bool.and_true, if_true,
          List.any_cons, Bool.true_or, if_pos rfl]
        calc childrenConcat ({ g with children := g.children ++ [c] } :: rest)
            = (g.children ++ [c]) ++ childrenConcat rest := by simp [childrenConcat]
          _ = g.children ++ ([c] ++ childrenConcat rest) := by rw [List.append_assoc]
          _ ~ g.children ++ (childrenConcat rest ++ [c]) :=
              (List.perm_append_comm).append_left g.children
          _ = (g.children ++ childrenConcat rest) ++ [c] := by rw [List.append_assoc]
          _ = childrenConcat (g :: rest) ++ [c] := by simp [childrenConcat]
      | true =>
        simp only [attachChild, hg, hr, Bool.not_true, Bool.and_false, Bool.false_eq_true,
          if_false, List.any_cons, Bool.true_or, if_pos rfl]
        rw [hr, if_pos rfl] at ih
        calc childrenConcat (g :: attachChild c rest)
            = g.children ++ childrenConcat (attachChild c rest) := by simp [childrenConcat]
          _ ~ g.children ++ (childrenConcat rest ++ [c]) := ih.append_left g.children
          _ = (g.children ++ childrenConcat rest) ++ [c] := by rw [List.append_assoc]
          _ = childrenConcat (g :: rest) ++ [c] := by simp [childrenConcat]

theorem any_map_poly (f : α → β) (l : List α) (p : β → Bool) :
    (l.map f).any p = l.any (fun a => p (f a)) := by
  induction l with
  | nil => rfl
  | cons x xs ih => simp [List.any_cons, ih]

theorem attachChild_any_parent (c c2 : Project) (gs : List GroupedProject) :
    (attachChild c2 gs).any (fun g => g.parent.path == c.parentPath)
      = gs.any (fun g => g.parent.path == c.parentPath) := by
  have h1 : ∀ hs : List GroupedProject,
      hs.any (fun g => g.parent.path == c.parentPath)
        = (hs.map GroupedProject.parent).any (fun p => p.path == c.parentPath) := by
    intro hs; rw [any_map_poly]
  rw [h1, h1, attachChild_map_parent]

theorem foldAttach_map_parent (cs : List Project) (gs : List GroupedProject) :
    ((cs.foldl (fun a c => attachChild c a) gs).map GroupedProject.parent)
      = gs.map GroupedProject.parent := by
  induction cs generalizing gs with
  | nil => rfl
  | cons c cs ih =>
    calc ((c :: cs).foldl (fun a c => attachChild c a) gs).map GroupedProject.parent
        = ((cs.foldl (fun a c => attachChild c a) (attachChild c gs)).map
            GroupedProject.parent) := rfl
      _ = (attachChild c gs).map GroupedProject.parent := ih (attachChild c gs)
      _ = gs.map GroupedProject.parent := attachChild_map_parent c gs

theorem foldAttach_childrenConcat (cs : List Project) (gs : List GroupedProject) :
    childrenConcat (cs.foldl (fun a c => attachChild c a) gs) ~
      childrenConcat gs
        ++ cs.filter (fun c => gs.any (fun g => g.parent.path == c.parentPath)) := by
  induction cs generalizing gs with
  | nil => simp
  | cons c cs ih =>
    have hstep : ((c :: cs).foldl (fun a c => attachChild c a) gs)
        = cs.foldl (fun a c => attachChild c a) (attachChild c gs) := rfl
    have hpred : (cs.filter (fun c2 => (attachChild c gs).any
          (fun g => g.parent.path == c2.parentPath)))
        = cs.filter (fun c2 => gs.any (fun g => g.parent.path == c2.parentPath)) := by
      refine List.filter_congr (fun x _ => ?_)
      exact attachChild_any_parent x c gs
    rw [hstep]
    refine (ih (attachChild c gs)).trans ?_
    rw [hpred]
    cases hmatch : gs.any (fun g => g.parent.path == c.parentPath) with
    | false =>
      rw [attachChild_no_match c gs hmatch]
      simp [hmatch]
    | true =>
      have h1 := attachChild_childrenConcat c gs
      rw [hmatch, if_pos rfl] at h1
      refine (h1.append_right _).trans ?_
      rw [List.filter_cons_of_pos (by rw [hmatch]), List.append_assoc]
      exact (List.perm_middle.symm).append_left (childrenConcat gs)

/-- The update `Sort`'s second pass applies to the unique group matching a
child, when the match is unique. -/
def attachUpdate (c : Project) (g : GroupedProject) : GroupedProject :=
  if g.parent.path == c.parentPath then { g with children := g.children ++ [c] } else g

theorem attachUpdate_parent (c : Project) (g : GroupedProject) :
    (attachUpdate c g).parent = g.parent := by
  unfold attachUpdate
  by_cases h : (g.parent.path == c.parentPath) = true
  · rw [if_pos h]
  · rw [if_neg h]

theorem filter_eq_nil_any (p : α → Bool) (l : List α)
    (h : l.filter p = []) : l.any p = false := by
  cases ha : l.any p with
  | false => rfl
  | true =>
    rcases List.any_eq_true.1 ha with ⟨x, hx, hpx⟩
    have : x ∈ l.filter p := List.mem_filter.2 ⟨hx, hpx⟩
    rw [h] at this
    exact absurd this (List.not_mem_nil x)

theorem attachChild_eq_map (c : Project) (gs : List GroupedProject)
    (h : (gs.filter (fun g => g.parent.path == c.parentPath)).length ≤ 1) :
    attachChild c gs = gs.map (attachUpdate c) := by
  induction gs with
  | nil => rfl
  | cons g rest ih =>
    cases hg : g.parent.path == c.parentPath with
    | true =>
      have hrest : rest.filter (fun g => g.parent.path == c.parentPath) = [] := by
        rw [List.filter_cons_of_pos (by rw [hg])] at h
        have := Nat.le_of_succ_le_succ h
        exact List.length_eq_zero.1 (Nat.le_zero.1 this)
      have hany : rest.any (fun g2 => g2.parent.path == c.parentPath) = false :=
        filter_eq_nil_any _ rest hrest
      have hmap : rest.map (attachUpdate c) = rest := by
        have : ∀ x ∈ rest, attachUpdate c x = x := by
          intro x hx
          have hxp : (x.parent.path == c.parentPath) = false := by
            cases hxp : x.parent.path == c.parentPath with
            | false => rfl
            | true =>
              have : x ∈ rest.filter (fun g => g.parent.path == c.parentPath) :=
                List.mem_filter.2 ⟨hx, hxp⟩
              rw [hrest] at this
              exact absurd this (List.not_mem_nil x)
          unfold attachUpdate
          rw [hxp]
          simp
        calc rest.map (attachUpdate c) = rest.map id := List.map_congr_left this
          _ = rest := List.map_id rest
      simp only [attachChild, hg, hany, Bool.not_false, Bool.and_true, if_true,
        List.map_cons, hmap]
      unfold attachUpdate
      rw [if_pos (by rw [hg])]
    | false =>
      have hrest : (rest.filter (fun g => g.parent.path == c.parentPath)).length ≤ 1 := by
        rw [List.filter_cons_of_neg (by rw [hg]; simp)] at h
        exact h
      simp only [attachChild, hg, Bool.false_and, Bool.false_eq_true, if_false,
        List.map_cons, ih hrest]
      unfold attachUpdate
      rw [if_neg (by rw [hg]; simp)]

theorem foldAttach_eq_map (cs : List Project) (gs : List GroupedProject)
    (h : ∀ c ∈ cs, (gs.filter (fun g => g.parent.path == c.parentPath)).length ≤ 1) :
    cs.foldl (fun a c => attachChild c a) gs =
      gs.map (fun g => { g with
        children := g.children
          ++ cs.filter (fun c => g.parent.path == c.parentPath) }) := by
  induction cs generalizing gs with
  | nil =>
    simp only [List.filter_nil, List.append_nil]
    exact (List.map_id gs).symm
  | cons c cs ih =>
    have hc := h c (List.mem_cons_self c cs)
    have hstep : ((c :: cs).foldl (fun a c => attachChild c a) gs)
        = cs.foldl (fun a c => attachChild c a) (attachChild c gs) := rfl
    rw [hstep, attachChild_eq_map c gs hc]
    have hlen : ∀ c2 ∈ cs, (((gs.map (attachUpdate c)).filter
        (fun g => g.parent.path == c2.parentPath)).length) ≤ 1 := by
      intro c2 hc2
      have hf : (gs.map (attachUpdate c)).filter (fun g => g.parent.path == c2.parentPath)
          = (gs.filter (fun g => g.parent.path == c2.parentPath)).map (attachUpdate c) := by
        rw [List.filter_map]
        congr 1
        refine List.filter_congr (fun x _ => ?_)
        show ((attachUpdate c x).parent.path == c2.parentPath)
          = (x.parent.path == c2.parentPath)
        rw [attachUpdate_parent]
      rw [hf, List.length_map]
      exact h c2 (List.mem_cons_of_mem c hc2)
    rw [ih (gs.map (attachUpdate c)) hlen, List.map_map]
    refine List.map_congr_left (fun g _ => ?_)
    simp only [Function.comp_apply]
    unfold attachUpdate
    cases hg : g.parent.path == c.parentPath with
    | true =>
      rw [if_pos rfl]
      dsimp only
      rw [List.filter_cons_of_pos (by simpa using hg), List.append_assoc]
      rfl
    | false =>
      rw [if_neg (by simp)]
      rw [List.filter_cons_of_neg (by simp [hg])]

theorem groupsOf_map_parent (l : List Project) :
    (groupsOf l).map GroupedProject.parent = l.filter (fun p => p.depth == 0) := by
  unfold groupsOf
  rw [List.map_map]
  exact List.map_id (l.filter (fun p => p.depth == 0))

theorem childrenConcat_groupsOf (l : List Project) : childrenConcat (groupsOf l) = [] := by
  unfold groupsOf childrenConcat
  rw [List.flatMap_map]
  simp

theorem groupedOf_map_parent (l : List Project) :
    (groupedOf l).map GroupedProject.parent = l.filter (fun p => p.depth == 0) := by
  unfold groupedOf
  rw [foldAttach_map_parent, groupsOf_map_parent]

theorem sortedChildGroupsOf_map_parent (l : List Project) (key : String) :
    (sortedChildGroupsOf l key).map GroupedProject.parent
      = (sortedGroupsOf l key).map GroupedProject.parent := by
  unfold sortedChildGroupsOf
  rw [List.map_map]
  rfl

theorem sortedGroupsOf_map_parent_perm (l : List Project) (key : String) :
    (sortedGroupsOf l key).map GroupedProject.parent ~ l.filter (fun p => p.depth == 0) := by
  have h1 : sortedGroupsOf l key ~ groupedOf l := by
    unfold sortedGroupsOf
    exact sortSlice_perm _ _
  exact (h1.map GroupedProject.parent).trans (by rw [groupedOf_map_parent])

theorem childrenConcat_sortedChild_perm (l : List Project) (key : String) :
    childrenConcat (sortedChildGroupsOf l key) ~ childrenConcat (groupedOf l) := by
  unfold sortedChildGroupsOf childrenConcat
  rw [List.flatMap_map]
  have h1 : (sortedGroupsOf l key).flatMap
      (fun g => GroupedProject.children
        { g with children := sortSlice (childLess key) g.children })
      ~ (sortedGroupsOf l key).flatMap GroupedProject.children :=
    List.Perm.flatMap_left _ (fun g _ => sortSlice_perm (childLess key) g.children)
  refine h1.trans ?_
  have h2 : sortedGroupsOf l key ~ groupedOf l := by
    unfold sortedGroupsOf
    exact sortSlice_perm _ _
  exact List.Perm.flatMap_right GroupedProject.children h2

theorem filter_or_perm (p q : α → Bool) (l : List α)
    (hdis : ∀ x ∈ l, p x = true → q x = false) :
    l.filter p ++ l.filter q ~ l.filter (fun x => p x || q x) := by
  induction l with
  | nil => simp
  | cons x xs ih =>
    have ih2 := ih (fun y hy => hdis y (List.mem_cons_of_mem x hy))
    cases hp : p x with
    | true =>
      rw [List.filter_cons_of_pos hp, List.filter_cons_of_neg
        (by rw [hdis x (List.mem_cons_self x xs) hp]; simp),
        List.filter_cons_of_pos (by rw [hp]; simp)]
      exact ih2.cons x
    | false =>
      rw [List.filter_cons_of_neg (by simp [hp])]
      cases hq : q x with
      | true =>
        rw [List.filter_cons_of_pos hq, List.filter_cons_of_pos (by rw [hp, hq]; simp)]
        refine List.Perm.trans ?_ (ih2.cons x)
        exact List.perm_middle
      | false =>
        rw [List.filter_cons_of_neg (by simp [hq]),
          List.filter_cons_of_neg (by simp [hp, hq])]
        exact ih2

theorem groupsOf_any_parent (l : List Project) (c : Project) :
    (groupsOf l).any (fun g => g.parent.path == c.parentPath)
      = l.any (fun q => q.depth == 0 && q.path == c.parentPath) := by
  unfold groupsOf
  rw [any_map_poly, List.any_filter]

theorem childrenConcat_groupedOf_perm (l : List Project) :
    childrenConcat (groupedOf l) ~
      l.filter (fun c => (decide (0 < c.depth) && !(c.parentPath == []))
        && l.any (fun q => q.depth == 0 && q.path == c.parentPath)) := by
  unfold groupedOf
  refine (foldAttach_childrenConcat (eligChildren l) (groupsOf l)).trans ?_
  rw [childrenConcat_groupsOf, List.nil_append]
  have h1 : (eligChildren l).filter
      (fun c => (groupsOf l).any (fun g => g.parent.path == c.parentPath))
      = (eligChildren l).filter
        (fun c => l.any (fun q => q.depth == 0 && q.path == c.parentPath)) := by
    refine List.filter_congr (fun x _ => ?_)
    exact groupsOf_any_parent l x
  rw [h1]
  unfold eligChildren
  rw [List.filter_filter]
  refine List.Perm.of_eq (List.filter_congr (fun x _ => ?_))
  rw [Bool.and_comm]

/-- Fact established for claim C10: for every input list and every key, the
output of `Sort` consists, up to order, of exactly the Depth-0 entities of
the input plus those deeper entities whose non-empty `ParentPath` is the
`Path` of some Depth-0 entity of the input; everything else is dropped. -/
theorem sortProjects_output_contents (l : List Project) (key : String) :
    sortProjects l key ~
      l.filter (fun p => p.depth == 0 ||
        ((decide (0 < p.depth) && !(p.parentPath == []))
          && l.any (fun q => q.depth == 0 && q.path == p.parentPath))) := by
  unfold sortProjects
  refine List.Perm.trans (List.map_append_flatMap_perm (sortedChildGroupsOf l key)
    GroupedProject.parent GroupedProject.children).symm ?_
  have h1 : (sortedChildGroupsOf l key).map GroupedProject.parent
      ~ l.filter (fun p => p.depth == 0) := by
    rw [sortedChildGroupsOf_map_parent]
    exact sortedGroupsOf_map_parent_perm l key
  have h2 : (sortedChildGroupsOf l key).flatMap GroupedProject.children
      ~ l.filter (fun c => (decide (0 < c.depth) && !(c.parentPath == []))
        && l.any (fun q => q.depth == 0 && q.path == c.parentPath)) :=
    (childrenConcat_sortedChild_perm l key).trans (childrenConcat_groupedOf_perm l)
  refine ((h1.append h2).trans ?_)
  refine filter_or_perm _ _ l (fun x _ hx0 => ?_)
  have hd0 : x.depth = 0 := by simpa using hx0
  rw [hd0]
  simp

theorem groupsOf_filter_length (l : List Project) (pp : List String) :
    ((groupsOf l).filter (fun g => g.parent.path == pp)).length
      = (l.filter (fun q => q.depth == 0 && q.path == pp)).length := by
  unfold groupsOf
  rw [List.filter_map, List.length_map]
  have hcomp : ((fun g : GroupedProject => g.parent.path == pp)
      ∘ (fun p : Project => ({ parent := p, children := [] } : GroupedProject)))
      = fun p : Project => p.path == pp := rfl
  rw [hcomp, List.filter_filter]
  refine congrArg List.length (List.filter_congr (fun x _ => ?_))
  rw [Bool.and_comm]

theorem groupedOf_eq_of_unique (l : List Project)
    (h : ∀ c ∈ eligChildren l,
      (l.filter (fun q => q.depth == 0 && q.path == c.parentPath)).length ≤ 1) :
    groupedOf l = (l.filter (fun p => p.depth == 0)).map
      (fun p => GroupedProject.mk p
        ((eligChildren l).filter (fun c => p.path == c.parentPath))) := by
  unfold groupedOf
  rw [foldAttach_eq_map _ _ (fun c hc => by rw [groupsOf_filter_length]; exact h c hc)]
  unfold groupsOf
  rw [List.map_map]
  rfl

/-- Claim C2: on an input satisfying the Depth-1 parent invariant, `Sort`
emits each Depth-0 entity immediately followed by exactly its own Depth-1
children, for every key. -/
theorem sortProjects_preserves_groups (l : List Project) (key : String)
    (hdep : ∀ p ∈ l, p.depth = 0 ∨ p.depth = 1)
    (hinv : ∀ p ∈ l, p.depth = 1 → p.parentPath ≠ [] ∧
      (l.filter (fun q => q.depth == 0 && q.path == p.parentPath)).length = 1) :
    ∃ gs : List GroupedProject,
      sortProjects l key = gs.flatMap (fun g => g.parent :: g.children) ∧
      gs.map GroupedProject.parent ~ l.filter (fun p => p.depth == 0) ∧
      ∀ g ∈ gs, g.parent.depth = 0 ∧
        g.children ~ l.filter (fun c => c.depth == 1 && c.parentPath == g.parent.path) ∧
        ∀ c ∈ g.children, c.depth = 1 ∧ c.parentPath = g.parent.path := by
  have huniq : ∀ c ∈ eligChildren l,
      (l.filter (fun q => q.depth == 0 && q.path == c.parentPath)).length ≤ 1 := by
    intro c hc
    have hcl : c ∈ l := List.mem_of_mem_filter hc
    have hcd : decide (0 < c.depth) = true := by
      have hb := (List.mem_filter.1 hc).2
      rw [Bool.and_eq_true] at hb
      exact hb.1
    have hd1 : c.depth = 1 := by
      rcases hdep c hcl with h0 | h1
      · rw [h0] at hcd; simp at hcd
      · exact h1
    rw [(hinv c hcl hd1).2]
  refine ⟨sortedChildGroupsOf l key, rfl, ?_, ?_⟩
  · rw [sortedChildGroupsOf_map_parent]
    exact sortedGroupsOf_map_parent_perm l key
  · intro g hg
    unfold sortedChildGroupsOf at hg
    obtain ⟨g0, hg0mem, rfl⟩ := List.mem_map.1 hg
    have hperm : sortedGroupsOf l key ~ groupedOf l := by
      unfold sortedGroupsOf
      exact sortSlice_perm _ _
    have h2 : g0 ∈ groupedOf l := hperm.mem_iff.1 hg0mem
    rw [groupedOf_eq_of_unique l huniq] at h2
    obtain ⟨p, hpmem, rfl⟩ := List.mem_map.1 h2
    have hp0 : p.depth = 0 := by
      have := (List.mem_filter.1 hpmem).2
      simpa using this
    have hfiltEq : (eligChildren l).filter (fun c => p.path == c.parentPath)
        = l.filter (fun c => c.depth == 1 && c.parentPath == p.path) := by
      unfold eligChildren
      rw [List.filter_filter]
      refine List.filter_congr (fun x hx => ?_)
      rcases hdep x hx with h0 | h1
      · simp [h0]
      · have hpp : x.parentPath ≠ [] := (hinv x hx h1).1
        have hppb : (x.parentPath == []) = false := by
          cases hb : x.parentPath == [] with
          | false => rfl
          | true => exact absurd (eq_of_beq hb) hpp
        rw [h1]
        simp only [hppb, Bool.not_false, decide_True, Bool.and_true, Bool.true_and]
        rw [beq_comm_eq]
        simp
    refine ⟨hp0, ?_, ?_⟩
    · dsimp only
      rw [hfiltEq]
      exact sortSlice_perm (childLess key) _
    · intro c hc
      dsimp only at hc
      have hc2 : c ∈ (eligChildren l).filter (fun c => p.path == c.parentPath) :=
        (sortSlice_perm (childLess key) _).mem_iff.1 hc
      rw [hfiltEq] at hc2
      have := (List.mem_filter.1 hc2).2
      rw [Bool.and_eq_true] at this
      exact ⟨by simpa using this.1, eq_of_beq this.2⟩

/-- The effective language the group comparator sorts by: Groups are
mapped to the terminal sentinel "zzz". -/
def effLang (p : Project) : String := if p.isGroup then "zzz" else p.language

/-- Shape shared by the two language-comparator branches: compare by a key
string, tie-break by a name string. -/
def lexNameLess (k n : α → String) (x y : α) : Bool :=
  if k x == k y then decide (n x < n y) else decide (k x < k y)

theorem groupLess_language_eq (p q : Project) :
    groupLess sortByLanguage p q = lexNameLess effLang Project.name p q := by
  have h1 : (sortByLanguage == sortByName) = false := by decide
  have h2 : (sortByLanguage == sortByLastModified) = false := by decide
  have h3 : (sortByLanguage == sortByLanguage) = true := by decide
  unfold groupLess lexNameLess effLang
  rw [h1, h2, h3]
  simp

theorem childLess_language_eq (p q : Project) :
    childLess sortByLanguage p q = lexNameLess Project.language Project.name p q := by
  have h1 : (sortByLanguage == sortByName) = false := by decide
  have h2 : (sortByLanguage == sortByLastModified) = false := by decide
  have h3 : (sortByLanguage == sortByLanguage) = true := by decide
  unfold childLess lexNameLess
  rw [h1, h2, h3]
  simp

theorem lexNameLess_asymm (k n : α → String) (x y : α)
    (h : lexNameLess k n x y = true) : lexNameLess k n y x = false := by
  unfold lexNameLess at h ⊢
  by_cases he : (k x == k y) = true
  · rw [if_pos he] at h
    rw [if_pos (by rw [beq_comm_eq]; exact he)]
    exact decide_eq_false (not_lt.2 (le_of_lt (of_decide_eq_true h)))
  · rw [if_neg he] at h
    have he2 : (k y == k x) = false := by
      rw [beq_comm_eq]
      exact Bool.not_eq_true _ ▸ Bool.of_not_eq_true he
    rw [if_neg (by rw [he2]; simp)]
    exact decide_eq_false (not_lt.2 (le_of_lt (of_decide_eq_true h)))

theorem lexNameLess_trans (k n : α → String) (x y z : α)
    (hxy : lexNameLess k n x y = true) (hyz : lexNameLess k n y z = true) :
    lexNameLess k n x z = true := by
  unfold lexNameLess at hxy hyz ⊢
  by_cases hxy2 : (k x == k y) = true
  · have hkxy : k x = k y := eq_of_beq hxy2
    rw [if_pos hxy2] at hxy
    by_cases hyz2 : (k y == k z) = true
    · have hkyz : k y = k z := eq_of_beq hyz2
      rw [if_pos hyz2] at hyz
      rw [if_pos (by rw [hkxy, hkyz]; exact beq_self_eq_true (k z))]
      exact decide_eq_true (lt_trans (of_decide_eq_true hxy) (of_decide_eq_true hyz))
    · rw [if_neg hyz2] at hyz
      have hlt : k x < k z := hkxy ▸ of_decide_eq_true hyz
      rw [if_neg (fun hc => absurd (eq_of_beq hc) (ne_of_lt hlt))]
      exact decide_eq_true hlt
  · rw [if_neg hxy2] at hxy
    by_cases hyz2 : (k y == k z) = true
    · have hkyz : k y = k z := eq_of_beq hyz2
      have hlt : k x < k z := hkyz ▸ of_decide_eq_true hxy
      rw [if_neg (fun hc => absurd (eq_of_beq hc) (ne_of_lt hlt))]
      exact decide_eq_true hlt
    · rw [if_neg hyz2] at hyz
      have hlt : k x < k z := lt_trans (of_decide_eq_true hxy) (of_decide_eq_true hyz)
      rw [if_neg (fun hc => absurd (eq_of_beq hc) (ne_of_lt hlt))]
      exact decide_eq_true hlt

theorem groupLess_language_asymm (p q : Project)
    (h : groupLess sortByLanguage p q = true) : groupLess sortByLanguage q p = false := by
  rw [groupLess_language_eq] at h ⊢
  exact lexNameLess_asymm _ _ p q h

theorem groupLess_language_trans (p q r : Project)
    (h1 : groupLess sortByLanguage p q = true)
    (h2 : groupLess sortByLanguage q r = true) : groupLess sortByLanguage p r = true := by
  rw [groupLess_language_eq] at h1 h2 ⊢
  exact lexNameLess_trans _ _ p q r h1 h2

theorem childLess_language_asymm (p q : Project)
    (h : childLess sortByLanguage p q = true) : childLess sortByLanguage q p = false := by
  rw [childLess_language_eq] at h ⊢
  exact lexNameLess_asymm _ _ p q h

theorem childLess_language_trans (p q r : Project)
    (h1 : childLess sortByLanguage p q = true)
    (h2 : childLess sortByLanguage q r = true) : childLess sortByLanguage p r = true := by
  rw [childLess_language_eq] at h1 h2 ⊢
  exact lexNameLess_trans _ _ p q r h1 h2

/-- Amended claim C6: the ascending-name tie-break exists only in the
language comparator.  Under the language key, any two Depth-0 entries with
equal effective language (Groups counted as the sentinel "zzz") appear in
ascending name order, and so do equal-language children inside each
group's block.  Under lastModified the comparator has no name tie-break,
so equal timestamps keep their relative input order instead (see the
counterexample). -/
theorem sortLanguage_ties_name_ascending (l : List Project) :
    ∃ gs : List GroupedProject,
      sortProjects l sortByLanguage = gs.flatMap (fun g => g.parent :: g.children) ∧
      (gs.map GroupedProject.parent).Pairwise
        (fun a b => effLang a = effLang b → a.name ≤ b.name) ∧
      ∀ g ∈ gs, g.children.Pairwise
        (fun a b => a.language = b.language → a.name ≤ b.name) := by
  refine ⟨sortedChildGroupsOf l sortByLanguage, rfl, ?_, ?_⟩
  · rw [sortedChildGroupsOf_map_parent]
    have hp := sortSlice_pairwise
      (fun g1 g2 => groupLess sortByLanguage g1.parent g2.parent)
      (fun a b h => groupLess_language_asymm a.parent b.parent h)
      (fun a b c h1 h2 => groupLess_language_trans a.parent b.parent c.parent h1 h2)
      (groupedOf l)
    rw [List.pairwise_map]
    unfold sortedGroupsOf
    refine hp.imp ?_
    intro g1 g2 hfalse heq
    rw [groupLess_language_eq] at hfalse
    unfold lexNameLess at hfalse
    rw [if_pos (heq ▸ beq_self_eq_true (effLang g2.parent))] at hfalse
    exact le_of_not_lt (of_decide_eq_false hfalse)
  · intro g hg
    unfold sortedChildGroupsOf at hg
    obtain ⟨g0, _, rfl⟩ := List.mem_map.1 hg
    have hp := sortSlice_pairwise (childLess sortByLanguage)
      (fun a b h => childLess_language_asymm a b h)
      (fun a b c h1 h2 => childLess_language_trans a b c h1 h2)
      g0.children
    refine hp.imp ?_
    intro c1 c2 hfalse heq
    rw [childLess_language_eq] at hfalse
    unfold lexNameLess at hfalse
    rw [if_pos (heq ▸ beq_self_eq_true c2.language)] at hfalse
    exact le_of_not_lt (of_decide_eq_false hfalse)

/-- Two Depth-0 projects with identical timestamps, listed with the larger
name first. -/
def tieB : Project := { name := "b", path := ["pb"], lastModified := 5 }

/-- The smaller-named twin of `tieB`. -/
def tieA : Project := { name := "a", path := ["pa"], lastModified := 5 }

/-- Counterexample to claim C6 as stated: sorting by lastModified leaves
two entries with identical timestamps in their input order ("b" before
"a"), not in ascending name order, because the lastModified comparator has
no name tie-break and the sort is not re-keyed by name. -/
theorem sortLastModified_tie_not_name_ascending :
    sortProjects [tieB, tieA] sortByLastModified = [tieB, tieA]
      ∧ tieB.lastModified = tieA.lastModified
      ∧ tieA.name < tieB.name := by
  refine ⟨by decide, rfl, ?_⟩
  rw [String.lt_iff_toList_lt]
  decide

/-- Concrete well-formed scan result used to instantiate the group
preservation theorem: one parent with two children, one standalone
project, children listed out of order. -/
def witC2List : List Project :=
  [{ name := "x", path := ["w", "x"], parentPath := ["w"], depth := 1 },
   { name := "w", path := ["w"], depth := 0 },
   { name := "c", path := ["w", "c"], parentPath := ["w"], depth := 1 },
   { name := "a", path := ["a"], depth := 0 }]

theorem sortProjects_preserves_groups_witness :
    (∀ p ∈ witC2List, p.depth = 0 ∨ p.depth = 1) ∧
    (∀ p ∈ witC2List, p.depth = 1 → p.parentPath ≠ [] ∧
      (witC2List.filter (fun q => q.depth == 0 && q.path == p.parentPath)).length = 1) ∧
    ∃ gs : List GroupedProject,
      sortProjects witC2List sortByName = gs.flatMap (fun g => g.parent :: g.children) ∧
      gs.map GroupedProject.parent ~ witC2List.filter (fun p => p.depth == 0) ∧
      ∀ g ∈ gs, g.parent.depth = 0 ∧
        g.children ~ witC2List.filter
          (fun c => c.depth == 1 && c.parentPath == g.parent.path) ∧
        ∀ c ∈ g.children, c.depth = 1 ∧ c.parentPath = g.parent.path :=
  ⟨by decide, by decide,
    sortProjects_preserves_groups witC2List sortByName (by decide) (by decide)⟩

/-- A directory entry as returned by `os.ReadDir`. -/
structure DirEntry where
  name : String
  isDir : Bool
deriving Repr, DecidableEq

/-- Git status as returned by the `internal/git` collaborator. -/
structure GitStatus where
  isRepo : Bool
  branch : String
  isDirty : Bool
deriving Repr, DecidableEq

/-- Docker detection result from the `internal/docker` collaborator. -/
structure DockerInfo where
  hasDockerfile : Bool
  hasCompose : Bool
deriving Repr, DecidableEq

/-- Abstract filesystem plus the external collaborators the scanner
consults.  `none` models the corresponding Go call returning an error. -/
structure FileSystem where
  readDir : List String → Option (List DirEntry)
  stat : List String → Option Nat
  langDetect : List String → Option String
  gitState : List String → Option GitStatus
  dockerState : List String → Option DockerInfo

/-- Scanner configuration (`Scanner` struct in scanner.go). -/
structure ScanConfig where
  excludePatterns : List String
  showHidden : Bool

/-- `isExcluded`: exact-string match against the exclude patterns. -/
def isExcluded (s : ScanConfig) (nm : String) : Bool :=
  s.excludePatterns.any (fun pat => nm == pat)

/-- `strings.HasPrefix(name, ".")`: the name's first character is a dot. -/
def startsWithDot (nm : String) : Bool :=
  match nm.data with
  | [] => false
  | c :: _ => c == '.'

/-- The marker list of `isProjectRoot` in scanner.go. -/
def projectIndicators : List String :=
  [".git", "go.mod", "package.json", "Cargo.toml", "requirements.txt", "setup.py",
   "pyproject.toml", "Gemfile", "pom.xml", "build.gradle", "composer.json",
   "CMakeLists.txt", "Makefile", ".project", "README.md", "README"]

/-- `isProjectRoot(path)`: true iff `os.Stat` succeeds on some indicator
inside the directory. -/
def isProjectRoot (fs : FileSystem) (path : List String) : Bool :=
  projectIndicators.any (fun ind => (fs.stat (path ++ [ind])).isSome)

/-- `scanProject(name, path, depth)`: fails iff `os.Stat(path)` fails;
enrichment failures degrade single fields to their defaults. -/
def scanProject (fs : FileSystem) (nm : String) (path : List String)
    (depth : Nat) : Option Project :=
  match fs.stat path with
  | none => none
  | some t =>
    let lang := match fs.langDetect path with
      | some lg => lg
      | none => "Unknown"
    let git := match fs.gitState path with
      | some g => g
      | none => { isRepo := false, branch := "", isDirty := false }
    let docker := match fs.dockerState path with
      | some d => d
      | none => { hasDockerfile := false, hasCompose := false }
    some { name := nm, path := path, lastModified := t, language := lang,
           isGitRepo := git.isRepo, gitBranch := git.branch, gitDirty := git.isDirty,
           hasDockerfile := docker.hasDockerfile, hasCompose := docker.hasCompose,
           depth := depth }

/-- Loop body of `findChildProjects` over the child directory entries. -/
def childScanLoop (fs : FileSystem) (cfg : ScanConfig) (dirPath : List String) :
    List DirEntry → List Project
  | [] => []
  | e :: rest =>
    let tail := childScanLoop fs cfg dirPath rest
    if !e.isDir then tail
    else if !cfg.showHidden && startsWithDot e.name then tail
    else if isExcluded cfg e.name then tail
    else if isProjectRoot fs (dirPath ++ [e.name]) then
      match scanProject fs e.name (dirPath ++ [e.name]) 1 with
      | none => tail
      | some p => p :: tail
    else tail

/-- `findChildProjects(dirPath)`: one level only; a read error yields nil. -/
def findChildProjects (fs : FileSystem) (cfg : ScanConfig)
    (dirPath : List String) : List Project :=
  match fs.readDir dirPath with
  | none => []
  | some entries => childScanLoop fs cfg dirPath entries

/-- The child projects of one top-level directory, as `scanWithGroups`
emits them: `ParentPath` set to the parent directory and Depth forced
to 1. -/
def scanChildrenOf (fs : FileSystem) (cfg : ScanConfig)
    (dirPath : List String) : List Project :=
  (findChildProjects fs cfg dirPath).map
    (fun c => { c with parentPath := dirPath, depth := 1 })

/-- The synthetic Group entity `scanWithGroups` builds for a non-project
directory that contains child projects; a failed `os.Stat` leaves
`LastModified` at its zero value. -/
def groupEntity (fs : FileSystem) (e : DirEntry) (dirPath : List String)
    (n : Nat) : Project :=
  { name := e.name, path := dirPath, depth := 0, isGroup := true,
    subProjectCount := n, expanded := true,
    lastModified := match fs.stat dirPath with | some t => t | none => 0 }

/-- Loop body of `scanWithGroups` over the top-level entries.  For a
project the entity is emitted at Depth 0 followed by its children at
Depth 1 with `ParentPath` set; for a bare group a synthetic Group entity
is emitted; otherwise the directory is dropped. -/
def scanEntriesLoop (fs : FileSystem) (cfg : ScanConfig) (basePath : List String) :
    List DirEntry → List Project
  | [] => []
  | e :: rest =>
    let tail := scanEntriesLoop fs cfg basePath rest
    if !e.isDir then tail
    else if !cfg.showHidden && startsWithDot e.name then tail
    else if isExcluded cfg e.name then tail
    else
      let dirPath := basePath ++ [e.name]
      let children := scanChildrenOf fs cfg dirPath
      if isProjectRoot fs dirPath then
        match scanProject fs e.name dirPath 0 with
        | none => tail
        | some proj =>
          ({ proj with subProjectCount := children.length, expanded := true }
            :: children) ++ tail
      else if decide (0 < children.length) then
        (groupEntity fs e dirPath children.length :: children) ++ tail
      else tail

/-- `scanWithGroups(basePath)`: fails as a whole only when the root
listing fails. -/
def scanWithGroups (fs : FileSystem) (cfg : ScanConfig)
    (basePath : List String) : Option (List Project) :=
  match fs.readDir basePath with
  | none => none
  | some entries => some (scanEntriesLoop fs cfg basePath entries)

theorem scanProject_fields (fs : FileSystem) (nm : String) (path : List String)
    (depth : Nat) (proj : Project)
    (h : scanProject fs nm path depth = some proj) :
    proj.name = nm ∧ proj.path = path ∧ proj.depth = depth := by
  unfold scanProject at h
  cases hstat : fs.stat path with
  | none => rw [hstat] at h; exact absurd h (by simp)
  | some t =>
    rw [hstat] at h
    have h2 := Option.some.inj h
    rw [← h2]
    exact ⟨rfl, rfl, rfl⟩

theorem scanChildrenOf_mem (fs : FileSystem) (cfg : ScanConfig)
    (dirPath : List String) :
    ∀ c ∈ scanChildrenOf fs cfg dirPath, c.depth = 1 ∧ c.parentPath = dirPath := by
  intro c hc
  obtain ⟨c0, _, rfl⟩ := List.mem_map.1 hc
  exact ⟨rfl, rfl⟩

theorem scanLoop_cons_cases (fs : FileSystem) (cfg : ScanConfig)
    (basePath : List String) (e : DirEntry) (rest : List DirEntry) :
    scanEntriesLoop fs cfg basePath (e :: rest) = scanEntriesLoop fs cfg basePath rest
    ∨ ∃ hd cs, scanEntriesLoop fs cfg basePath (e :: rest)
        = (hd :: cs) ++ scanEntriesLoop fs cfg basePath rest
      ∧ hd.depth = 0 ∧ hd.path = basePath ++ [e.name]
      ∧ ∀ c ∈ cs, c.depth = 1 ∧ c.parentPath = basePath ++ [e.name] := by
  cases h1 : (!e.isDir) with
  | true => left; simp [scanEntriesLoop, h1]
  | false =>
  cases h2 : (!cfg.showHidden && startsWithDot e.name) with
  | true => left; simp [scanEntriesLoop, h1, h2]
  | false =>
  cases h3 : isExcluded cfg e.name with
  | true => left; simp [scanEntriesLoop, h1, h2, h3]
  | false =>
  cases h4 : isProjectRoot fs (basePath ++ [e.name]) with
  | true =>
    cases h5 : scanProject fs e.name (basePath ++ [e.name]) 0 with
    | none => left; simp [scanEntriesLoop, h1, h2, h3, h4, h5]
    | some proj =>
      right
      obtain ⟨hnm, hpath, hdep⟩ := scanProject_fields fs e.name _ 0 proj h5
      refine ⟨{ proj with
          subProjectCount := (scanChildrenOf fs cfg (basePath ++ [e.name])).length,
          expanded := true },
        scanChildrenOf fs cfg (basePath ++ [e.name]), ?_, hdep, hpath,
        scanChildrenOf_mem fs cfg (basePath ++ [e.name])⟩
      simp [scanEntriesLoop, h1, h2, h3, h4, h5]
  | false =>
    cases h6 : decide (0 < (scanChildrenOf fs cfg (basePath ++ [e.name])).length) with
    | false => left; simp [scanEntriesLoop, h1, h2, h3, h4, h6]
    | true =>
      right
      refine ⟨groupEntity fs e (basePath ++ [e.name])
          (scanChildrenOf fs cfg (basePath ++ [e.name])).length,
        scanChildrenOf fs cfg (basePath ++ [e.name]), ?_, rfl, rfl,
        scanChildrenOf_mem fs cfg (basePath ++ [e.name])⟩
      simp [scanEntriesLoop, h1, h2, h3, h4, h6]

theorem scanLoop_d0paths_sublist (fs : FileSystem) (cfg : ScanConfig)
    (basePath : List String) (entries : List DirEntry) :
    List.Sublist
      (((scanEntriesLoop fs cfg basePath entries).filter
        (fun q => q.depth == 0)).map Project.path)
      (entries.map (fun e => basePath ++ [e.name])) := by
  induction entries with
  | nil => simp [scanEntriesLoop]
  | cons e rest ih =>
    rcases scanLoop_cons_cases fs cfg basePath e rest with
      hcase | ⟨hd, cs, heq, hhd0, hhdpath, hcs⟩
    · rw [hcase, List.map_cons]
      exact ih.cons _
    · rw [heq, List.filter_append, List.map_append, List.map_cons]
      have hfhd : (hd :: cs).filter (fun q => q.depth == 0) = [hd] := by
        rw [List.filter_cons_of_pos (by rw [hhd0]; rfl)]
        have hnil : cs.filter (fun q => q.depth == 0) = [] := by
          rw [List.filter_eq_nil_iff]
          intro c hc
          rw [(hcs c hc).1]
          simp
        rw [hnil]
      rw [hfhd, List.map_cons, List.map_nil, hhdpath]
      exact ih.cons₂ _

theorem scanLoop_d1_parent (fs : FileSystem) (cfg : ScanConfig)
    (basePath : List String) (entries : List DirEntry) :
    ∀ p ∈ scanEntriesLoop fs cfg basePath entries, p.depth = 1 →
      p.parentPath ≠ [] ∧ ∃ q ∈ scanEntriesLoop fs cfg basePath entries,
        q.depth = 0 ∧ q.path = p.parentPath := by
  induction entries with
  | nil => intro p hp; exact absurd hp (by simp [scanEntriesLoop])
  | cons e rest ih =>
    intro p hp hd1
    rcases scanLoop_cons_cases fs cfg basePath e rest with
      hcase | ⟨hd, cs, heq, hhd0, hhdpath, hcs⟩
    · rw [hcase] at hp ⊢
      exact ih p hp hd1
    · rw [heq] at hp ⊢
      rcases List.mem_append.1 hp with hp1 | hp2
      · rcases List.mem_cons.1 hp1 with rfl | hpc
        · rw [hhd0] at hd1
          exact absurd hd1 (by simp)
        · have hc := hcs p hpc
          refine ⟨by rw [hc.2]; simp, hd, ?_, hhd0, by rw [hhdpath, hc.2]⟩
          exact List.mem_append.2 (Or.inl (List.mem_cons_self hd cs))
      · obtain ⟨hpp, q, hq, hq0, hqp⟩ := ih p hp2 hd1
        exact ⟨hpp, q, List.mem_append.2 (Or.inr hq), hq0, hqp⟩

theorem filter_key_length_one {β : Type} [BEq β] [LawfulBEq β]
    (f : α → β) (l : List α) (b : β)
    (hnd : (l.map f).Nodup) (hex : ∃ x, x ∈ l ∧ f x = b) :
    (l.filter (fun x => f x == b)).length = 1 := by
  induction l with
  | nil =>
    obtain ⟨x, hx, _⟩ := hex
    exact absurd hx (List.not_mem_nil x)
  | cons y ys ih =>
    rw [List.map_cons, List.nodup_cons] at hnd
    cases hfy : f y == b with
    | true =>
      have hfyb : f y = b := eq_of_beq hfy
      rw [List.filter_cons_of_pos (by rw [hfy])]
      have hnil : ys.filter (fun x => f x == b) = [] := by
        rw [List.filter_eq_nil_iff]
        intro x hx hcx
        have hfx : f x = b := eq_of_beq hcx
        exact hnd.1 (by rw [hfyb, ← hfx]; exact List.mem_map_of_mem f hx)
      rw [hnil]
      rfl
    | false =>
      rw [List.filter_cons_of_neg (by simp [hfy])]
      refine ih hnd.2 ?_
      obtain ⟨x, hx, hxb⟩ := hex
      rcases List.mem_cons.1 hx with rfl | hx2
      · rw [hxb] at hfy
        simp at hfy
      · exact ⟨x, hx2, hxb⟩

/-- Claim C1: in every successful `scanWithGroups` result (over a listing
with distinct entry names, as the OS guarantees), each Depth-1 entity has
a non-empty `ParentPath` equal to the `Path` of exactly one Depth-0
entity of the same result. -/
theorem scanWithGroups_depth1_invariant (fs : FileSystem) (cfg : ScanConfig)
    (basePath : List String) (entries : List DirEntry) (out : List Project)
    (hrd : fs.readDir basePath = some entries)
    (hnd : (entries.map DirEntry.name).Nodup)
    (hout : scanWithGroups fs cfg basePath = some out) :
    ∀ p ∈ out, p.depth = 1 → p.parentPath ≠ [] ∧
      (out.filter (fun q => q.depth == 0 && q.path == p.parentPath)).length = 1 := by
  have hout2 : out = scanEntriesLoop fs cfg basePath entries := by
    unfold scanWithGroups at hout
    rw [hrd] at hout
    exact (Option.some.inj hout).symm
  subst hout2
  intro p hp hd1
  obtain ⟨hpp, q, hq, hq0, hqp⟩ := scanLoop_d1_parent fs cfg basePath entries p hp hd1
  refine ⟨hpp, ?_⟩
  have hndpaths : (((scanEntriesLoop fs cfg basePath entries).filter
      (fun r => r.depth == 0)).map Project.path).Nodup := by
    refine (scanLoop_d0paths_sublist fs cfg basePath entries).nodup ?_
    have hmm : entries.map (fun e => basePath ++ [e.name])
        = (entries.map DirEntry.name).map (fun n => basePath ++ [n]) := by
      rw [List.map_map]
      rfl
    rw [hmm]
    refine List.Nodup.map ?_ hnd
    intro a b hab
    simpa using List.append_cancel_left hab
  have hone := filter_key_length_one Project.path
    ((scanEntriesLoop fs cfg basePath entries).filter (fun r => r.depth == 0))
    p.parentPath hndpaths
    ⟨q, List.mem_filter.2 ⟨hq, by rw [hq0]; rfl⟩, hqp⟩
  rw [List.filter_filter] at hone
  calc ((scanEntriesLoop fs cfg basePath entries).filter
        (fun r => r.depth == 0 && r.path == p.parentPath)).length
      = ((scanEntriesLoop fs cfg basePath entries).filter
        (fun a => (a.path == p.parentPath) && (a.depth == 0))).length := by
        refine congrArg List.length (List.filter_congr (fun x _ => ?_))
        exact Bool.and_comm _ _
    _ = 1 := hone

/-- Concrete filesystem realizing the spec's scenario: `webdev` holds two
child projects (go.mod markers) but is no project itself; `standalone` is
a plain project. -/
def witFS : FileSystem where
  readDir := fun p =>
    if p == ([] : List String) then some [⟨"webdev", true⟩, ⟨"standalone", true⟩]
    else if p == ["webdev"] then some [⟨"frontend", true⟩, ⟨"backend", true⟩]
    else some []
  stat := fun p =>
    if p == ["webdev", "frontend", "go.mod"] then some 0
    else if p == ["webdev", "backend", "go.mod"] then some 0
    else if p == ["standalone", "go.mod"] then some 0
    else if p == ["webdev", "frontend"] then some 10
    else if p == ["webdev", "backend"] then some 11
    else if p == ["standalone"] then some 12
    else if p == ["webdev"] then some 13
    else none
  langDetect := fun _ => none
  gitState := fun _ => none
  dockerState := fun _ => none

/-- Default scanner configuration for the witness run. -/
def witCfg : ScanConfig := { excludePatterns := [], showHidden := false }

/-- The scan result of `witFS` from the root. -/
def witOut : List Project :=
  scanEntriesLoop witFS witCfg [] [⟨"webdev", true⟩, ⟨"standalone", true⟩]

/-- A Depth-1 entity of that result: the `frontend` child of `webdev`. -/
def witP : Project :=
  { name := "frontend", path := ["webdev", "frontend"], parentPath := ["webdev"],
    language := "Unknown", lastModified := 10, depth := 1 }

theorem scanWithGroups_depth1_invariant_witness :
    witP.parentPath ≠ [] ∧
    (witOut.filter (fun q => q.depth == 0 && q.path == witP.parentPath)).length = 1 :=
  scanWithGroups_depth1_invariant witFS witCfg []
    [⟨"webdev", true⟩, ⟨"standalone", true⟩] witOut rfl (by decide) rfl
    witP (by decide) rfl

/-- `plugin.Project` from `pkg/plugin/types.go`: the view of a project
handed to plugins. -/
structure PluginProject where
  name : String
  path : String
  language : String := ""
  gitBranch : String := ""
  gitDirty : Bool := false
  isGitRepo : Bool := false
deriving Repr, DecidableEq

/-- `plugin.ActionResult` from `pkg/plugin/types.go`. -/
structure ActionResult where
  success : Bool := false
  message : String := ""
  cdPath : String := ""
  execCmd : List String := []
deriving Repr, DecidableEq

/-- Observable outcome of one `ExternalPlugin.ExecuteAction` call as the
registry sees it: `(nil, err)`, `(nil, nil)`, or `(result, nil)`. -/
inductive ExecOutcome where
  | err : ExecOutcome
  | okNil : ExecOutcome
  | ok : ActionResult → ExecOutcome
deriving Repr, DecidableEq

/-- Whether the registry loop treats the outcome as handling the action:
no error and a non-nil result. -/
def handledBy (o : ExecOutcome) : Bool :=
  match o with
  | ExecOutcome.ok _ => true
  | _ => false

/-- A registered plugin as `Registry.ExecuteAction` consumes it: its
registration name and its `ExecuteAction` behaviour.  The list order
stands for the iteration order over the registry's plugin map. -/
structure RegisteredPlugin where
  regName : String
  execute : String → PluginProject → ExecOutcome

/-- `Registry.ExecuteAction` from `pkg/plugin/registry.go`, instrumented
with the names of the plugins actually called: try each plugin in order;
an error or a nil result moves on to the next; the first non-error,
non-nil result is returned at once; if none handles the action the
"no plugin handled action" error is returned. -/
def executeActionCalls (plugins : List RegisteredPlugin) (actionID : String)
    (proj : PluginProject) : List String × Except String ActionResult :=
  match plugins with
  | [] => ([], Except.error ("no plugin handled action: " ++ actionID))
  | p :: rest =>
    match p.execute actionID proj with
    | ExecOutcome.ok r => ([p.regName], Except.ok r)
    | _ =>
      let next := executeActionCalls rest actionID proj
      (p.regName :: next.1, next.2)

/-- Claim C3: `ExecuteAction` queries plugins one at a time in registry
order, stops at the first plugin returning a non-error non-nil result and
returns it without calling any later plugin; with no such plugin it
reports the "unhandled" error. -/
theorem executeAction_first_success :
    (∀ (pre : List RegisteredPlugin) (p : RegisteredPlugin)
       (post : List RegisteredPlugin) (aid : String) (proj : PluginProject)
       (r : ActionResult),
      (∀ q ∈ pre, handledBy (q.execute aid proj) = false) →
      p.execute aid proj = ExecOutcome.ok r →
      executeActionCalls (pre ++ p :: post) aid proj
        = (pre.map RegisteredPlugin.regName ++ [p.regName], Except.ok r)) ∧
    (∀ (plugins : List RegisteredPlugin) (aid : String) (proj : PluginProject),
      (∀ q ∈ plugins, handledBy (q.execute aid proj) = false) →
      executeActionCalls plugins aid proj
        = (plugins.map RegisteredPlugin.regName,
           Except.error ("no plugin handled action: " ++ aid))) := by
  constructor
  · intro pre
    induction pre with
    | nil =>
      intro p post aid proj r _ hp
      simp [executeActionCalls, hp]
    | cons q pre ih =>
      intro p post aid proj r hpre hp
      have hq : handledBy (q.execute aid proj) = false :=
        hpre q (List.mem_cons_self q pre)
      cases hqe : q.execute aid proj with
      | ok r2 => rw [hqe] at hq; simp [handledBy] at hq
      | err =>
        simp only [List.cons_append, executeActionCalls, hqe, List.append_eq]
        rw [ih p post aid proj r (fun q2 hq2 => hpre q2 (List.mem_cons_of_mem q hq2)) hp]
        simp
      | okNil =>
        simp only [List.cons_append, executeActionCalls, hqe, List.append_eq]
        rw [ih p post aid proj r (fun q2 hq2 => hpre q2 (List.mem_cons_of_mem q hq2)) hp]
        simp
  · intro plugins
    induction plugins with
    | nil =>
      intro aid proj _
      simp [executeActionCalls]
    | cons q rest ih =>
      intro aid proj hall
      have hq : handledBy (q.execute aid proj) = false :=
        hall q (List.mem_cons_self q rest)
      cases hqe : q.execute aid proj with
      | ok r2 => rw [hqe] at hq; simp [handledBy] at hq
      | err =>
        simp only [executeActionCalls, hqe, List.append_eq]
        rw [ih aid proj (fun q2 hq2 => hall q2 (List.mem_cons_of_mem q hq2))]
        simp
      | okNil =>
        simp only [executeActionCalls, hqe, List.append_eq]
        rw [ih aid proj (fun q2 hq2 => hall q2 (List.mem_cons_of_mem q hq2))]
        simp

/-- A plugin that always errors. -/
def witPluginA : RegisteredPlugin :=
  { regName := "alpha", execute := fun _ _ => ExecOutcome.err }

/-- A plugin that handles exactly the "open" action. -/
def witPluginB : RegisteredPlugin :=
  { regName := "beta", execute := fun aid _ =>
      if aid == "open" then ExecOutcome.ok { success := true } else ExecOutcome.okNil }

/-- A later plugin that would also handle anything, but must never be
reached for "open". -/
def witPluginC : RegisteredPlugin :=
  { regName := "gamma", execute := fun _ _ =>
      ExecOutcome.ok { success := false, message := "late" } }

/-- Concrete project for the dispatch witness. -/
def witProj : PluginProject := { name := "demo", path := "/r/demo" }

theorem executeAction_first_success_witness :
    executeActionCalls [witPluginA, witPluginB, witPluginC] "open" witProj
      = (["alpha", "beta"], Except.ok { success := true })
    ∧ executeActionCalls [witPluginA, witPluginB] "noop" witProj
      = (["alpha", "beta"], Except.error ("no plugin handled action: " ++ "noop")) :=
  ⟨executeAction_first_success.1 [witPluginA] witPluginB [witPluginC] "open" witProj
      { success := true } (by decide) rfl,
    executeAction_first_success.2 [witPluginA, witPluginB] "noop" witProj (by decide)⟩

/-- A Go JSON value held in a `map[string]interface{}` configuration:
either a non-object value (kept opaque) or a nested object. -/
inductive GoValue where
  | prim : String → GoValue
  | obj : List (String × GoValue) → GoValue

/-- `plugin.Manifest` from `pkg/plugin/registry.go`. -/
structure Manifest where
  name : String
  version : String := ""
  description : String := ""
  executable : String
  capabilities : List String := []
  config : List (String × GoValue) := []

/-- `plugin.Registry` construction state (`NewRegistry`); a `none`
pluginConfig models a nil Go map. -/
structure Registry where
  pluginsDir : List String
  configDir : List String
  enabledList : List String
  pluginConfig : Option (List (String × GoValue))

/-- `Registry.isEnabled`: exact-name membership in the enabled list. -/
def regIsEnabled (r : Registry) (nm : String) : Bool :=
  r.enabledList.any (fun en => en == nm)

/-- `Registry.getPluginConfig`: the host's per-plugin configuration — the
`pluginConfig[name]` entry when it exists and is an object, otherwise an
empty map.  No manifest data is consulted. -/
def getPluginConfig (r : Registry) (nm : String) : List (String × GoValue) :=
  match r.pluginConfig with
  | none => []
  | some cfg =>
    match cfg.lookup nm with
    | some (GoValue.obj m) => m
    | _ => []

/-- `ExternalPlugin` as built by `NewExternalPlugin(execPath, manifest,
config)` in `pkg/plugin/external.go`. -/
structure ExternalPlugin where
  manifest : Manifest
  config : List (String × GoValue)
  execPath : List String

/-- The configuration object `ExternalPlugin.Init` sends in the `init`
RPC params (`params = {"config": p.config}` in external.go). -/
def initConfigOf (p : ExternalPlugin) : List (String × GoValue) := p.config

/-- Environment of one `LoadAll` run: the plugins-directory listing, the
parsed `plugin.json` of each subdirectory (`none` models a read or parse
failure), and whether that subdirectory's plugin spawns and answers
`init` successfully. -/
structure PluginHost where
  dirEntries : List DirEntry
  manifestOf : String → Option Manifest
  initOk : String → Bool

/-- Loop body of `Registry.LoadAll`: skip non-directories, disabled
plugins, manifest failures and init failures; register each surviving
plugin in `r.plugins[pluginName]` under `pluginName := entry.Name()`,
the DIRECTORY name, with `getPluginConfig(pluginName)` as its config and
the executable resolved inside the plugin directory. -/
def loadLoop (r : Registry) (host : PluginHost) :
    List DirEntry → List (String × ExternalPlugin)
  | [] => []
  | e :: rest =>
    let tail := loadLoop r host rest
    if !e.isDir then tail
    else if !(regIsEnabled r e.name) then tail
    else match host.manifestOf e.name with
      | none => tail
      | some m =>
        if host.initOk e.name then
          (e.name, { manifest := m, config := getPluginConfig r e.name,
                     execPath := r.pluginsDir ++ [e.name, m.executable] }) :: tail
        else tail

/-- `Registry.LoadAll`: the registry's plugin map after loading, as an
association list keyed by the names used for registration. -/
def loadAllFrom (r : Registry) (host : PluginHost) : List (String × ExternalPlugin) :=
  loadLoop r host host.dirEntries

/-- `Registry.GetPlugin`: map lookup. -/
def getPlugin (plugins : List (String × ExternalPlugin)) (nm : String) :
    Option ExternalPlugin :=
  plugins.lookup nm

/-- The merge the spec describes for claim C4, stated from the spec's
words for comparison: manifest defaults with host-config entries taking
priority ("merged configuration (defaults overridden by host config)").
The implementation performs no such merge. -/
def mergedConfigSpec (defaults hostCfg : List (String × GoValue)) :
    List (String × GoValue) :=
  defaults.filter (fun kv => !(hostCfg.any (fun kv2 => kv2.1 == kv.1))) ++ hostCfg

theorem loadLoop_mem (r : Registry) (host : PluginHost) (entries : List DirEntry) :
    ∀ nm p, (nm, p) ∈ loadLoop r host entries →
      (∃ e ∈ entries, e.isDir = true ∧ nm = e.name) ∧
      host.manifestOf nm = some p.manifest ∧
      host.initOk nm = true ∧
      p.config = getPluginConfig r nm ∧
      p.execPath = r.pluginsDir ++ [nm, p.manifest.executable] := by
  induction entries with
  | nil =>
    intro nm p hp
    exact absurd hp (by simp [loadLoop])
  | cons e rest ih =>
    intro nm p hp
    have hnext : ∀ hmem : (nm, p) ∈ loadLoop r host rest, _ := fun hmem => ih nm p hmem
    cases h1 : (!e.isDir) with
    | true =>
      rw [loadLoop, if_pos (by rw [h1])] at hp
      obtain ⟨⟨e2, he2, hdir, hname⟩, hrest⟩ := ih nm p hp
      exact ⟨⟨e2, List.mem_cons_of_mem e he2, hdir, hname⟩, hrest⟩
    | false =>
    cases h2 : (!(regIsEnabled r e.name)) with
    | true =>
      rw [loadLoop, if_neg (by rw [h1]; simp), if_pos (by rw [h2])] at hp
      obtain ⟨⟨e2, he2, hdir, hname⟩, hrest⟩ := ih nm p hp
      exact ⟨⟨e2, List.mem_cons_of_mem e he2, hdir, hname⟩, hrest⟩
    | false =>
    cases h3 : host.manifestOf e.name with
    | none =>
      rw [loadLoop, if_neg (by rw [h1]; simp), if_neg (by rw [h2]; simp), h3] at hp
      obtain ⟨⟨e2, he2, hdir, hname⟩, hrest⟩ := ih nm p hp
      exact ⟨⟨e2, List.mem_cons_of_mem e he2, hdir, hname⟩, hrest⟩
    | some m =>
      cases h4 : host.initOk e.name with
      | false =>
        rw [loadLoop, if_neg (by rw [h1]; simp), if_neg (by rw [h2]; simp), h3] at hp
        dsimp only at hp
        rw [if_neg (by simp [h4])] at hp
        obtain ⟨⟨e2, he2, hdir, hname⟩, hrest⟩ := ih nm p hp
        exact ⟨⟨e2, List.mem_cons_of_mem e he2, hdir, hname⟩, hrest⟩
      | true =>
        rw [loadLoop, if_neg (by rw [h1]; simp), if_neg (by rw [h2]; simp), h3] at hp
        dsimp only at hp
        rw [if_pos h4] at hp
        rcases List.mem_cons.1 hp with heq | hmem
        · have hnm : nm = e.name := congrArg Prod.fst heq
          have hpe : p = { manifest := m, config := getPluginConfig r e.name,
                           execPath := r.pluginsDir ++ [e.name, m.executable] } :=
            congrArg Prod.snd heq
          subst hnm
          refine ⟨⟨e, List.mem_cons_self e rest, by simpa using h1, rfl⟩, ?_, h4, ?_, ?_⟩
          · rw [hpe, h3]
          · rw [hpe]
          · rw [hpe]
        · obtain ⟨⟨e2, he2, hdir, hname⟩, hrest⟩ := ih nm p hmem
          exact ⟨⟨e2, List.mem_cons_of_mem e he2, hdir, hname⟩, hrest⟩

/-- Amended claim C4: the configuration passed to each loaded plugin's
`init` call is exactly the host's per-plugin configuration for the
registration (directory) name — `getPluginConfig` — with no merge of the
manifest's default Config map. -/
theorem loadAll_init_config (r : Registry) (host : PluginHost)
    (nm : String) (p : ExternalPlugin) (hmem : (nm, p) ∈ loadAllFrom r host) :
    initConfigOf p = getPluginConfig r nm :=
  (loadLoop_mem r host host.dirEntries nm p hmem).2.2.2.1

/-- Amended claim C5: plugins are registered under their directory name:
every registry key names a directory entry whose manifest parsed and
whose init succeeded, and the plugin stored there carries that
directory's manifest — the manifest's Name field is not the key. -/
theorem loadAll_registered_by_dirname (r : Registry) (host : PluginHost)
    (nm : String) (p : ExternalPlugin) (hmem : (nm, p) ∈ loadAllFrom r host) :
    (∃ e ∈ host.dirEntries, e.isDir = true ∧ nm = e.name) ∧
    host.manifestOf nm = some p.manifest ∧ host.initOk nm = true :=
  ⟨(loadLoop_mem r host host.dirEntries nm p hmem).1,
   (loadLoop_mem r host host.dirEntries nm p hmem).2.1,
   (loadLoop_mem r host host.dirEntries nm p hmem).2.2.1⟩

/-- Registry for the no-merge counterexample: plugin "p1" enabled, no
host configuration at all. -/
def witC4Reg : Registry :=
  { pluginsDir := ["plugins"], configDir := [], enabledList := ["p1"],
    pluginConfig := none }

/-- Manifest of "p1" declaring a default config key "retries". -/
def witC4Manifest : Manifest :=
  { name := "p1", executable := "run",
    config := [("retries", GoValue.prim "3")] }

/-- Host with the single plugin directory "p1", loading fine. -/
def witC4Host : PluginHost :=
  { dirEntries := [⟨"p1", true⟩],
    manifestOf := fun nm => if nm == "p1" then some witC4Manifest else none,
    initOk := fun _ => true }

/-- The plugin as LoadAll actually builds it: empty config. -/
def witC4Plugin : ExternalPlugin :=
  { manifest := witC4Manifest, config := [],
    execPath := ["plugins", "p1", "run"] }

/-- Counterexample to claim C4 as stated: the manifest carries a default
config key "retries" and the host config is empty, yet the plugin's init
receives an empty configuration — the default-only key is dropped, while
the spec's merge would have passed it with its default value. -/
theorem loadAll_no_default_merge :
    loadAllFrom witC4Reg witC4Host = [("p1", witC4Plugin)]
    ∧ (initConfigOf witC4Plugin).lookup "retries" = none
    ∧ (mergedConfigSpec witC4Manifest.config
        (getPluginConfig witC4Reg "p1")).lookup "retries"
      = some (GoValue.prim "3") :=
  ⟨rfl, rfl, rfl⟩

theorem loadAll_init_config_witness :
    initConfigOf witC4Plugin = getPluginConfig witC4Reg "p1" :=
  loadAll_init_config witC4Reg witC4Host "p1" witC4Plugin
    (by rw [show loadAllFrom witC4Reg witC4Host = [("p1", witC4Plugin)] from rfl]
        exact List.mem_cons_self _ _)

/-- Registry enabling the directory name "dirname". -/
def witC5Reg : Registry :=
  { pluginsDir := ["plugins"], configDir := [], enabledList := ["dirname"],
    pluginConfig := none }

/-- Manifest whose Name "fancy-name" differs from its directory name. -/
def witC5Manifest : Manifest := { name := "fancy-name", executable := "bin" }

/-- Host with one plugin in directory "dirname". -/
def witC5Host : PluginHost :=
  { dirEntries := [⟨"dirname", true⟩],
    manifestOf := fun nm => if nm == "dirname" then some witC5Manifest else none,
    initOk := fun _ => true }

/-- The plugin that ends up registered. -/
def witC5Plugin : ExternalPlugin :=
  { manifest := witC5Manifest, config := [],
    execPath := ["plugins", "dirname", "bin"] }

/-- Counterexample to claim C5 as stated: with manifest Name "fancy-name"
over directory "dirname", `GetPlugin("fancy-name")` finds nothing — the
plugin is registered under the directory name instead. -/
theorem loadAll_manifest_name_not_key :
    getPlugin (loadAllFrom witC5Reg witC5Host) "fancy-name" = none
    ∧ getPlugin (loadAllFrom witC5Reg witC5Host) "dirname" = some witC5Plugin :=
  ⟨rfl, rfl⟩

theorem loadAll_registered_by_dirname_witness :
    (∃ e ∈ witC5Host.dirEntries, e.isDir = true ∧ "dirname" = e.name) ∧
    witC5Host.manifestOf "dirname" = some witC5Plugin.manifest ∧
    witC5Host.initOk "dirname" = true :=
  loadAll_registered_by_dirname witC5Reg witC5Host "dirname" witC5Plugin
    (by rw [show loadAllFrom witC5Reg witC5Host = [("dirname", witC5Plugin)] from rfl]
        exact List.mem_cons_self _ _)

/-- `RPCError` from `pkg/plugin/rpc.go`. -/
structure RPCError where
  code : Int
  message : String
deriving Repr, DecidableEq

/-- `RPCResponse`; `result` holds the raw JSON text of the result member,
`rpcError` the optional error member (`Error` in Go). -/
structure RPCResponse where
  jsonrpc : String := "2.0"
  result : String := ""
  rpcError : Option RPCError := none
  id : Int
deriving Repr, DecidableEq

/-- `RPCRequest` as built inside `Call`. -/
structure RPCRequest where
  jsonrpc : String
  method : String
  params : Option GoValue
  id : Int

/-- One line of the subprocess's stdout as `Call` consumes it: either
`json.Unmarshal` fails on it, or it parses into a response object. -/
inductive StdoutLine where
  | malformed : StdoutLine
  | parsed : RPCResponse → StdoutLine
deriving Repr, DecidableEq

/-- Mutable state of an `RPCClient`: the id counter and the unread rest
of the subprocess's stdout.  Go's `int` counter moves one at a time and
never nears its 2^63 boundary within a session, so it is modelled as an
unbounded integer. -/
structure RPCClient where
  nextID : Int
  stdout : List StdoutLine
deriving Repr, DecidableEq

/-- `NewRPCClient` after a successful spawn: `nextID` starts at 1 and the
stdout stream is unread. -/
def newRPCClient (stream : List StdoutLine) : RPCClient :=
  { nextID := 1, stdout := stream }

/-- Per-call I/O environment: whether `json.Marshal` of the request and
the `stdin.Write` succeed. -/
structure CallEnv where
  marshalOk : Bool
  writeOk : Bool
deriving Repr, DecidableEq

/-- Everything one `Call` produces: the state afterwards, the request it
built (whose id came from the counter), the response object consumed
from stdout if any, and the value or error returned. -/
structure CallResult where
  client : RPCClient
  request : RPCRequest
  consumed : Option RPCResponse
  outcome : Except String String

/-- `RPCClient.Call` from `pkg/plugin/rpc.go`: take the next id and
increment the counter first, whatever happens later; marshal and write
the request; read one line; unmarshal it; an error member becomes an
error return, otherwise the result member is returned.  The response id
is never compared with the request id. -/
def rpcCall (c : RPCClient) (io : CallEnv) (method : String)
    (params : Option GoValue) : CallResult :=
  let id := c.nextID
  let c1 : RPCClient := { c with nextID := c.nextID + 1 }
  let request : RPCRequest :=
    { jsonrpc := "2.0", method := method, params := params, id := id }
  if !io.marshalOk then
    { client := c1, request := request, consumed := none,
      outcome := Except.error "failed to marshal request" }
  else if !io.writeOk then
    { client := c1, request := request, consumed := none,
      outcome := Except.error "failed to write request" }
  else
    match c1.stdout with
    | [] =>
      { client := c1, request := request, consumed := none,
        outcome := Except.error "failed to read response" }
    | line :: rest =>
      let c2 : RPCClient := { c1 with stdout := rest }
      match line with
      | StdoutLine.malformed =>
        { client := c2, request := request, consumed := none,
          outcome := Except.error "failed to unmarshal response" }
      | StdoutLine.parsed resp =>
        match resp.rpcError with
        | some err2 =>
          { client := c2, request := request, consumed := some resp,
            outcome := Except.error
              ("RPC error " ++ toString err2.code ++ ": " ++ err2.message) }
        | none =>
          { client := c2, request := request, consumed := some resp,
            outcome := Except.ok resp.result }

/-- Claim C7: a fresh transport's counter is 1, so the first Call's
request carries id 1; and every Call attempt — marshal failure, write
failure, read failure, malformed response, error response or success —
uses the current counter value as its request id and leaves the counter
exactly one larger. -/
theorem rpcCall_id_per_attempt :
    (∀ stream : List StdoutLine, (newRPCClient stream).nextID = 1) ∧
    (∀ (stream : List StdoutLine) (io : CallEnv) (method : String)
      (params : Option GoValue),
      (rpcCall (newRPCClient stream) io method params).request.id = 1) ∧
    (∀ (c : RPCClient) (io : CallEnv) (method : String) (params : Option GoValue),
      (rpcCall c io method params).request.id = c.nextID ∧
      (rpcCall c io method params).client.nextID = c.nextID + 1) := by
  have hmain : ∀ (c : RPCClient) (io : CallEnv) (method : String)
      (params : Option GoValue),
      (rpcCall c io method params).request.id = c.nextID ∧
      (rpcCall c io method params).client.nextID = c.nextID + 1 := by
    intro c io method params
    rcases c with ⟨nid, stdout⟩
    rcases io with ⟨m, w⟩
    cases m
    · exact ⟨rfl, rfl⟩
    · cases w
      · exact ⟨rfl, rfl⟩
      · cases stdout with
        | nil => exact ⟨rfl, rfl⟩
        | cons line rest =>
          cases line with
          | malformed => exact ⟨rfl, rfl⟩
          | parsed resp =>
            rcases resp with ⟨j, res, rerr, rid⟩
            cases rerr
            · exact ⟨rfl, rfl⟩
            · exact ⟨rfl, rfl⟩
  exact ⟨fun _ => rfl, fun stream io method params => (hmain _ io method params).1, hmain⟩

/-- A parsed success response carrying id 7 and result "42". -/
def witC8Resp : RPCResponse := { result := "42", id := 7 }

/-- A fresh transport whose subprocess has already emitted that line. -/
def witC8Client : RPCClient := newRPCClient [StdoutLine.parsed witC8Resp]

/-- Counterexample to claim C8 as stated: the first Call sends request
id 1 but happily consumes and returns the pending response whose id is 7
— `Call` never compares the response id with the request id. -/
theorem rpcCall_no_id_check :
    (rpcCall witC8Client ⟨true, true⟩ "actions" none).request.id = 1
    ∧ (rpcCall witC8Client ⟨true, true⟩ "actions" none).consumed = some witC8Resp
    ∧ (rpcCall witC8Client ⟨true, true⟩ "actions" none).outcome = Except.ok "42"
    ∧ witC8Resp.id ≠ 1 :=
  ⟨rfl, rfl, rfl, by decide⟩

/-- Amended claim C8: a successful Call returns the result member of the
next line available on stdout, whatever id that response carries;
request/response correlation is positional (one in-flight call under the
per-phase mutex), not enforced through ids. -/
theorem rpcCall_returns_head_response (c : RPCClient) (io : CallEnv)
    (method : String) (params : Option GoValue) (resp : RPCResponse)
    (rest : List StdoutLine)
    (hm : io.marshalOk = true) (hw : io.writeOk = true)
    (hs : c.stdout = StdoutLine.parsed resp :: rest)
    (he : resp.rpcError = none) :
    (rpcCall c io method params).consumed = some resp
    ∧ (rpcCall c io method params).outcome = Except.ok resp.result
    ∧ (rpcCall c io method params).client.stdout = rest := by
  rcases c with ⟨nid, stdout⟩
  rcases io with ⟨m, w⟩
  dsimp only at hm hw hs
  subst hm hw hs
  rcases resp with ⟨j, res, rerr, rid⟩
  dsimp only at he
  subst he
  exact ⟨rfl, rfl, rfl⟩

theorem rpcCall_returns_head_response_witness :
    (rpcCall witC8Client ⟨true, true⟩ "status" none).consumed = some witC8Resp
    ∧ (rpcCall witC8Client ⟨true, true⟩ "status" none).outcome = Except.ok witC8Resp.result
    ∧ (rpcCall witC8Client ⟨true, true⟩ "status" none).client.stdout = [] :=
  rpcCall_returns_head_response witC8Client ⟨true, true⟩ "status" none
    witC8Resp [] rfl rfl rfl rfl

/-- The atomic steps of `RPCClient.Call` relevant to its use of the
transport mutex. -/
inductive CallEvent where
  | lockAcquire
  | lockRelease
  | assignId
  | writeRequest
  | readResponse
deriving Repr, DecidableEq, BEq

/-- The sequence of mutex operations and shared-state steps `Call`
performs on its success path, transliterated from `pkg/plugin/rpc.go`:
`mu.Lock` / id assignment / `mu.Unlock`, then `mu.Lock` /
`stdin.Write` / `mu.Unlock`, then `mu.Lock` / `reader.ReadBytes` /
`mu.Unlock`. -/
def callEventTrace : List CallEvent :=
  [CallEvent.lockAcquire, CallEvent.assignId, CallEvent.lockRelease,
   CallEvent.lockAcquire, CallEvent.writeRequest, CallEvent.lockRelease,
   CallEvent.lockAcquire, CallEvent.readResponse, CallEvent.lockRelease]

/-- The property the spec asserts of `Call`: once the request write has
happened, the lock is not released before the response read. -/
def lockHeldAcrossRoundTrip (tr : List CallEvent) : Prop :=
  ∀ i k j, i < k → k < j →
    tr.get? i = some CallEvent.writeRequest →
    tr.get? j = some CallEvent.readResponse →
    tr.get? k ≠ some CallEvent.lockRelease

/-- The two threads of a concurrent-Call interleaving. -/
inductive ThreadTag where
  | t1
  | t2
deriving Repr, DecidableEq, BEq

/-- May thread `t` execute event `e` now?  Acquire needs a free lock,
release needs `t` to hold it; any other instruction is always runnable
(the mutex blocks only the lock operations). -/
def stepOk (e : CallEvent) (holder : Option ThreadTag) (t : ThreadTag) : Bool :=
  match e with
  | CallEvent.lockAcquire => holder == none
  | CallEvent.lockRelease => holder == some t
  | _ => true

/-- Lock state after thread `t` executes `e`. -/
def applyEvent (holder : Option ThreadTag) (t : ThreadTag) (e : CallEvent) :
    Option ThreadTag :=
  match e with
  | CallEvent.lockAcquire => some t
  | CallEvent.lockRelease => none
  | _ => holder

/-- Run a schedule over two threads that each still have to execute the
given event lists, under one mutex: `none` when the schedule is invalid
(a blocked or exhausted thread is picked, or events remain at the end),
otherwise the interleaved trace tagged by thread. -/
def runSched : List ThreadTag → List CallEvent → List CallEvent →
    Option ThreadTag → Option (List (ThreadTag × CallEvent))
  | [], rem1, rem2, _ =>
    if rem1 == [] && rem2 == [] then some [] else none
  | ThreadTag.t1 :: ts, e :: rem1, rem2, holder =>
    if stepOk e holder ThreadTag.t1 then
      match runSched ts rem1 rem2 (applyEvent holder ThreadTag.t1 e) with
      | some tr => some ((ThreadTag.t1, e) :: tr)
      | none => none
    else none
  | ThreadTag.t1 :: _, [], _, _ => none
  | ThreadTag.t2 :: ts, rem1, e :: rem2, holder =>
    if stepOk e holder ThreadTag.t2 then
      match runSched ts rem1 rem2 (applyEvent holder ThreadTag.t2 e) with
      | some tr => some ((ThreadTag.t2, e) :: tr)
      | none => none
    else none
  | ThreadTag.t2 :: _, _, [], _ => none

/-- A schedule in which thread 1 performs its id-assign and write phases,
thread 2 then performs its own, and only then does thread 1 read. -/
def witC9Sched : List ThreadTag :=
  [ThreadTag.t1, ThreadTag.t1, ThreadTag.t1,
   ThreadTag.t1, ThreadTag.t1, ThreadTag.t1,
   ThreadTag.t2, ThreadTag.t2, ThreadTag.t2,
   ThreadTag.t2, ThreadTag.t2, ThreadTag.t2,
   ThreadTag.t1, ThreadTag.t1, ThreadTag.t1,
   ThreadTag.t2, ThreadTag.t2, ThreadTag.t2]

/-- Counterexample to claim C9 as stated: the lock is released between
the request write and the response read of one Call (indices 4, 5 and 7
of the trace), and consequently the mutex admits a complete two-thread
interleaving in which the second Call's request write lands between the
first Call's write and its read. -/
theorem call_phases_can_interleave :
    ¬ lockHeldAcrossRoundTrip callEventTrace
    ∧ ∃ tr, runSched witC9Sched callEventTrace callEventTrace none = some tr
      ∧ tr.get? 4 = some (ThreadTag.t1, CallEvent.writeRequest)
      ∧ tr.get? 10 = some (ThreadTag.t2, CallEvent.writeRequest)
      ∧ tr.get? 13 = some (ThreadTag.t1, CallEvent.readResponse) := by
  constructor
  · intro h
    exact h 4 5 7 (by decide) (by decide) rfl rfl rfl
  · exact ⟨_, rfl, rfl, rfl, rfl⟩

/-- Amended claim C9: `Call` holds the mutex per phase, not per round
trip: every shared-state step of the trace sits directly between a lock
acquire and a lock release, and a release separates the request write
from the response read, so concurrent Calls serialize within each phase
but may interleave between phases. -/
theorem call_lock_per_phase :
    (∀ i, i < callEventTrace.length → ∀ e, callEventTrace.get? i = some e →
      e ≠ CallEvent.lockAcquire → e ≠ CallEvent.lockRelease →
      callEventTrace.get? (i - 1) = some CallEvent.lockAcquire ∧
      callEventTrace.get? (i + 1) = some CallEvent.lockRelease) ∧
    (∃ k, 4 < k ∧ k < 7 ∧ callEventTrace.get? k = some CallEvent.lockRelease ∧
      callEventTrace.get? 4 = some CallEvent.writeRequest ∧
      callEventTrace.get? 7 = some CallEvent.readResponse) :=
  ⟨by decide, 5, by decide, by decide, rfl, rfl, rfl⟩

theorem call_lock_per_phase_witness :
    callEventTrace.get? 3 = some CallEvent.lockAcquire ∧
    callEventTrace.get? 5 = some CallEvent.lockRelease :=
  call_lock_per_phase.1 4 (by decide) CallEvent.writeRequest rfl
    (by decide) (by decide)

end Proj
